import Mathlib

/-!
Verification of the catalog synchronization engine of `ndumpmgr`/`ndumplib`.

Strings are modelled as `List Char`.  Rust's `str::replace` (leftmost,
non-overlapping, all occurrences; an empty pattern matches at every char
boundary) is modelled by `listReplace`.  The ROM-name codec
(`compress_rom_name` / `decompress_rom_name` in
`ndumplib/src/catalog.rs`) is translated verbatim.
-/

namespace NDump

/-! ## Definitions: Rust string replacement and the ROM-name codec -/

/-- Fuelled worker for `listReplace`; the fuel only serves to make the
recursion structural, `listReplace` always supplies enough. -/
def replaceFuel (n r : List Char) : Nat → List Char → List Char
  | 0, _ => []
  | f + 1, h =>
    match n, h with
    | [], [] => r
    | [], c :: t => r ++ c :: replaceFuel n r f t
    | _ :: _, [] => []
    | n0 :: ns, c :: t =>
      if (n0 :: ns).isPrefixOf (c :: t) then
        r ++ replaceFuel n r f (t.drop ns.length)
      else c :: replaceFuel n r f t

/-- Rust `haystack.replace(needle, repl)` on char lists: leftmost,
non-overlapping replacement of every occurrence; the empty needle matches
at every char boundary (including the end). -/
def listReplace (h n r : List Char) : List Char := replaceFuel n r (h.length + 1) h

/-- `decompress_rom_name` from `ndumplib/src/catalog.rs`. -/
def decompress_rom_name (rom_name game_name : List Char) : List Char :=
  if rom_name = "$c".data then game_name ++ ".cue".data
  else if rom_name = "$i".data then game_name ++ ".iso".data
  else if rom_name = "$b".data then game_name ++ ".bin".data
  else if "$T".data.isPrefixOf rom_name then
    game_name ++ " (Track ".data ++ rom_name.drop 2 ++ ").bin".data
  else listReplace rom_name ['#'] game_name

/-- `compress_rom_name` from `ndumplib/src/catalog.rs`.  The byte slice
`first_step[9..len-5]` is `(drop 9).take (len - 14)` (its bounds are char
boundaries because the surrounding pattern is ASCII). -/
def compress_rom_name (rom_name game_name : List Char) : List Char :=
  let first_step := listReplace rom_name game_name ['#']
  if "# (Track ".data.isPrefixOf first_step && ").bin".data.isSuffixOf first_step then
    "$T".data ++ (first_step.drop 9).take (first_step.length - 14)
  else if first_step = "#.cue".data then "$c".data
  else if first_step = "#.iso".data then "$i".data
  else if first_step = "#.bin".data then "$b".data
  else first_step

/-- Substituting a replacement list for every `'#'` character; this is what
`listReplace` with the single-character needle `"#"` computes, and hence what
the generic branch of `decompress_rom_name` does. -/
def hashExpand (g : List Char) : List Char → List Char
  | [] => []
  | c :: t => (if c = '#' then g else [c]) ++ hashExpand g t

deriving instance DecidableEq for Except

/-! ## Definitions: data model of the catalog (ndumplib/src/catalog.rs) -/

/-- `Status` enum from `catalog.rs`. -/
inductive Status where
  | Verified
  | BadDump
  | Unknown
deriving DecidableEq

/-- `Category` enum from `catalog.rs`. -/
inductive Category where
  | Games
  | Demos
  | Coverdiscs
  | Applications
  | Preproduction
  | Educational
  | BonusDiscs
  | Multimedia
  | Addons
  | Audio
  | Video
  | Unknown
deriving DecidableEq

/-- `ROM` struct from `catalog.rs`.  Byte digests are modelled as lists of
naturals; `crc32` (an `i32` on the wire) as an integer.  Equality is the
derived `PartialEq`/`Eq` of the source: it compares **all** fields. -/
structure ROM where
  name : List Char
  status : Option Status
  size : Nat
  crc32 : Int
  md5 : List Nat
  sha1 : List Nat
  sha256 : Option (List Nat)
deriving DecidableEq

/-- The manual `impl Hash for ROM`: only `size`, `crc32`, `md5` and `sha1`
are hashed.  The random 64-bit hash of the source is modelled injectively by
the hashed tuple itself. -/
def ROM.key (r : ROM) : Nat × Int × List Nat × List Nat := (r.size, r.crc32, r.md5, r.sha1)

/-- A parsed game (name, categories, ROMs) as produced by
`Game::parse_game` / `add_rom`; the `HashSet` fields are modelled as
duplicate-free lists. -/
structure Game where
  name : List Char
  categories : List Category
  roms : List ROM
deriving DecidableEq

/-- `HashSet::insert`: add the element unless an equal one is present. -/
def hsInsert [DecidableEq α] (l : List α) (a : α) : List α := if a ∈ l then l else l ++ [a]

/-- `HashSet` equality as Rust implements it: equal lengths and the first
set contained in the second. -/
def hsEq [DecidableEq α] (a b : List α) : Bool :=
  a.length == b.length && a.all (fun x => decide (x ∈ b))

/-- One stored game: its `games` row (name, revision) together with its
`game_categories` rows and its `roms` rows.  ROM rows hold the
**compressed** name, exactly as the database does. -/
structure StoredGame where
  name : List Char
  revision : Int
  catRows : List Category
  romRows : List ROM
deriving DecidableEq

/-- The category half of `Game::load`: read the `game_categories` rows into
a `HashSet`. -/
def Game.loadCategories (s : StoredGame) : List Category := s.catRows.foldl hsInsert []

/-- Reading ROM rows back into a `HashSet`: decompress each stored name
against the game name and insert. -/
def rowsToRoms (nm : List Char) (rows : List ROM) : List ROM :=
  (rows.map (fun r => { r with name := decompress_rom_name r.name nm })).foldl hsInsert []

/-- The ROM half of `Game::load`: read the `roms` rows, decompressing each
stored name against the game name, into a `HashSet`. -/
def Game.loadRoms (s : StoredGame) : List ROM := rowsToRoms s.name s.romRows

/-- Multiset (permutation) equality, with the `BEq` induced by decidable
equality; used to model the sorted-random-hash comparison in
`Game::update` (the 64-bit random hash is modelled injectively by the
hashed tuple). -/
def keysPerm (a b : List (Nat × Int × List Nat × List Nat)) : Bool :=
  @List.isPerm _ instBEqOfDecidableEq a b

/-- `insert_roms` compresses each ROM name against the game name before
writing the row. -/
def compressROM (gname : List Char) (r : ROM) : ROM :=
  { r with name := compress_rom_name r.name gname }

/-- `Game::update` from `catalog.rs`, as a pure function from the stored
game and the parsed game to the updated rows and the returned `changed`
flag.  The sorted-random-hash comparison of the ROM branch is modelled as
multiset equality (`isPerm`) of the hashed tuples. In the model the
revision `UPDATE` always finds its row, so the `MissingGame` error path
cannot fire. -/
def Game.update (s : StoredGame) (g : Game) : StoredGame × Bool :=
  let loadedCats := Game.loadCategories s
  let loadedRoms := Game.loadRoms s
  let catsDiffer := !hsEq loadedCats g.categories
  let catRows' := if catsDiffer then g.categories else s.catRows
  let changedCats := catsDiffer && !loadedCats.isEmpty
  let romsDiffer := !hsEq loadedRoms g.roms
  let romsEqualHashes :=
    if loadedRoms.length ≠ g.roms.length then false
    else keysPerm (loadedRoms.map ROM.key) (g.roms.map ROM.key)
  let revision' := if romsDiffer && !romsEqualHashes then s.revision + 1 else s.revision
  let romRows' := if romsDiffer then g.roms.map (compressROM s.name) else s.romRows
  ({ name := s.name, revision := revision', catRows := catRows', romRows := romRows' },
    changedCats || romsDiffer)

/-- `Game::insert`: a fresh `games` row with revision 0, the category rows,
and the compressed ROM rows. -/
def Game.insert (g : Game) : StoredGame :=
  { name := g.name, revision := 0, catRows := g.categories,
    romRows := g.roms.map (compressROM g.name) }

/-- A stored game on which re-running `Game::update` with the same parsed
game is a no-op: this is the state every game is in right after a
successful import of `g`, provided `g`'s ROM names survive the codec. -/
def selfStable (g : Game) (e : StoredGame) : Prop :=
  e.name = g.name ∧ Game.update e g = (e, false)

/-- The four counters logged by `Catalog::import_datafile_games`. -/
structure Counters where
  unchanged : Nat
  changed : Nat
  added : Nat
  removed : Nat
deriving DecidableEq

/-- Errors the import loop can raise in the model (the duplicate-game check
of `import_datafile_games`). -/
inductive ImportError where
  | duplicateGame (name : List Char)
deriving DecidableEq

/-- `HashMap::get` keyed by game name. -/
def findStored (l : List StoredGame) (n : List Char) : Option StoredGame :=
  l.find? (fun s => decide (s.name = n))

/-- `HashMap::remove` keyed by game name. -/
def eraseStored (l : List StoredGame) (n : List Char) : List StoredGame :=
  l.eraseP (fun s => decide (s.name = n))

/-- The loop of `Catalog::import_datafile_games`: `remaining` is the map of
stored games not yet matched, `result` the games written so far (in parse
order), `processed` the duplicate-detection set. After the loop the games
still in `remaining` are deleted and counted as removed. -/
def importGo : List Game → List StoredGame → List StoredGame → List (List Char) → Counters →
    Except ImportError (List StoredGame × Counters)
  | [], remaining, result, _, c => .ok (result, { c with removed := remaining.length })
  | g :: gs, remaining, result, processed, c =>
    if g.name ∈ processed then .error (.duplicateGame g.name)
    else
      match findStored remaining g.name with
      | some s =>
        importGo gs (eraseStored remaining g.name) (result ++ [(Game.update s g).1])
          (g.name :: processed)
          (if (Game.update s g).2 then { c with changed := c.changed + 1 }
           else { c with unchanged := c.unchanged + 1 })
      | none =>
        importGo gs remaining (result ++ [Game.insert g]) (g.name :: processed)
          { c with added := c.added + 1 }

/-- `Catalog::import_datafile_games` as a pure transaction: from the stored
games of the datafile and the parsed games to either an error (the
transaction rolls back, no state is returned) or the committed state plus
the counters. -/
def import_datafile_games (stored : List StoredGame) (parsed : List Game) :
    Except ImportError (List StoredGame × Counters) :=
  importGo parsed stored [] [] ⟨0, 0, 0, 0⟩

/-! ## Definitions: freshness scheduler (`update_redump_console`,
`Catalog::init`, `Cuesheets::init`, `update_redump_cuesheets`) -/

/-- A `datafiles` row as far as the scheduler is concerned.  Timestamps are
UTC milliseconds. -/
structure DatafileMeta where
  version : String
  last_updated : Int
deriving DecidableEq

/-- What one `update_redump_console` run did. -/
inductive RedumpAction where
  | skippedFresh
  | touchedOnly
  | imported
deriving DecidableEq

/-- `Catalog::init` sets `min_update_delay` to `TimeDelta::days(2)`, in
milliseconds. -/
def catalog_min_update_delay : Int := 2 * 24 * 60 * 60 * 1000

/-- `Cuesheets::init` sets `cue_update_delay` to `TimeDelta::days(7)`, in
milliseconds. -/
def cue_update_delay : Int := 7 * 24 * 60 * 60 * 1000

/-- The decision structure of `Catalog::update_redump_console`: skip while
fresh; otherwise fetch, and either touch the timestamp when the header
version equals the stored version, or import and then touch.  Returns the
action taken and the updated `datafiles` row. -/
def update_redump_console (now delay : Int) (df : DatafileMeta) (headerVersion : String) :
    RedumpAction × DatafileMeta :=
  if now < df.last_updated + delay then (.skippedFresh, df)
  else if df.version = headerVersion then
    (.touchedOnly, { df with last_updated := now })
  else (.imported, { version := headerVersion, last_updated := now })

/-- The decision structure of `Cuesheets::update_redump_cuesheets`: skip
while fresh, otherwise import the cue archive and set `last_updated := now`.
Returns whether a refresh was performed and the new timestamp. -/
def update_redump_cuesheets (now delay last_updated : Int) : Bool × Int :=
  if now < last_updated + delay then (false, last_updated) else (true, now)

/-! ## Definitions: cuesheet neutralization and the ROM verifier
(`dump_manager.rs`, `dump_manager/cuesheets.rs`) -/

/-- ASCII whitespace, standing in for Rust's `str::trim` character class
(the inputs of interest are ASCII). -/
def isWsChar (c : Char) : Bool := c = ' ' || c = '\t' || c = '\n' || c = '\r'

/-- Rust `str::trim` on char lists. -/
def trimChars (l : List Char) : List Char :=
  ((l.dropWhile isWsChar).reverse.dropWhile isWsChar).reverse

/-- The `SUPPORTED_COMMANDS` set of `cuesheets.rs`. -/
def supported_commands : List (List Char) :=
  ["FILE".data, "TRACK".data, "PREGAP".data, "INDEX".data, "POSTGAP".data]

/-- The filter predicate of `neutralize`:
`supported_commands.contains(&v[0..v.find(' ').unwrap()])` on the trimmed
line.  `none` models the `unwrap` panic on a line with no space. -/
def lineKeepTest (v : List Char) : Option Bool :=
  let w := trimChars v
  match w.findIdx? (fun c => c = ' ') with
  | none => none
  | some i => some (decide (w.take i ∈ supported_commands))

/-- `neutralize` from `cuesheets.rs`: trim the content, split on `'\n'`,
keep the (untrimmed) lines whose first space-delimited token is a supported
command, join with `'\n'`, and replace the file stem by `"$"`.  Returns
`none` when the source panics (some line has no space after trimming). -/
def neutralize (content stem : List Char) : Option (List Char) :=
  let lines := (trimChars content).splitOn '\n'
  if lines.all (fun v => (lineKeepTest v).isSome) then
    some (listReplace
      (List.intercalate ['\n'] (lines.filter (fun v => (lineKeepTest v).getD false)))
      stem ['$'])
  else none

/-- A filesystem path: parent components plus a file name. -/
structure FilePath0 where
  dir : List (List Char)
  file : List Char
deriving DecidableEq

/-- Rust `Path::extension` on the file name: the part after the last `'.'`,
provided that dot is not the leading character. -/
def fileExtension (name : List Char) : Option (List Char) :=
  let ext := name.reverse.takeWhile (fun c => decide (c ≠ '.'))
  if ext.length + 2 ≤ name.length then some ext.reverse else none

/-- Rust `Path::file_stem` on the file name. -/
def fileStem (name : List Char) : List Char :=
  match fileExtension name with
  | some e => name.take (name.length - (e.length + 1))
  | none => name

/-- Rust `Path::with_file_name`. -/
def withFileName (p : FilePath0) (f : List Char) : FilePath0 := { dir := p.dir, file := f }

/-- The environment `DumpManager::verify_file` runs against: the readable
files, the `roms.sha1` column, the cuesheet store (neutralized text →
reference SHA-1), the opaque SHA-1 primitive, and whether `TempDir::new`
succeeds. -/
structure FSState where
  files : List (FilePath0 × List Char)
  romSha1s : List (List Nat)
  cues : List (List Char × List Nat)
  sha1fn : List Char → List Nat
  tempDirOk : Bool

/-- `std::fs::read_to_string` / `File::open`. -/
def readFile (fs : FSState) (p : FilePath0) : Option (List Char) :=
  (fs.files.find? (fun q => decide (q.1 = p))).map (·.2)

/-- `Path::is_file`. -/
def isFile (fs : FSState) (p : FilePath0) : Bool := (readFile fs p).isSome

/-- The `cues` table lookup `SELECT sha1 FROM cues WHERE content = ?`. -/
def lookupCue (fs : FSState) (n : List Char) : Option (List Nat) :=
  (fs.cues.find? (fun q => decide (q.1 = n))).map (·.2)

/-- Modelled from the spec: `Catalog::is_rom` lives in
`dump_manager/catalog.rs`, which is not part of the published sources; §4.8
says the query "selects any row in `roms` whose `sha1` equals the
candidate". -/
def is_rom (fs : FSState) (h : List Nat) : Bool := fs.romSha1s.any (fun x => decide (x = h))

/-- `ROMStatus` from `dump_manager.rs`. -/
inductive ROMStatus where
  | Verified
  | Unverified
  | Broken
deriving DecidableEq

/-- Failure modes of the verifier model: a Rust panic, or an I/O `Err`. -/
inductive VerifyErr where
  | panicked
  | ioError
deriving DecidableEq

/-- `get_track_filenames` from `cuesheets.rs`: every match of the regex
`(?<=FILE ")[^"]+`, i.e. every maximal run of non-quote characters
immediately preceded by `FILE "`.  Splitting on `'"'` makes the runs the
segments; a segment matches when the previous segment ends in `FILE `. -/
def get_track_filenames (content : List Char) : List (List Char) :=
  let segs := content.splitOn '"'
  ((segs.zip segs.tail).filter
    (fun q => "FILE ".data.isSuffixOf q.1 && !q.2.isEmpty)).map (·.2)

/-- `Cuesheets::find_cue_hash`: neutralize against the path's stem and look
the canonical text up; `.error .panicked` when `neutralize` panics. -/
def find_cue_hash (fs : FSState) (content : List Char) (p : FilePath0) :
    Except VerifyErr (Option (List Nat)) :=
  match neutralize content (fileStem p.file) with
  | none => .error .panicked
  | some n => .ok (lookupCue fs n)

/-- `DumpManager::verify_standard_file`: SHA-1 the file and look it up. -/
def verify_standard_file (fs : FSState) (p : FilePath0) : Except VerifyErr ROMStatus :=
  match readFile fs p with
  | none => .error .ioError
  | some content =>
    .ok (if is_rom fs (fs.sha1fn content) then .Verified else .Unverified)

/-- `DumpManager::verify_cue`. -/
def verify_cue (fs : FSState) (p : FilePath0) : Except VerifyErr ROMStatus :=
  match readFile fs p with
  | none => .error .ioError
  | some content =>
    if (get_track_filenames content).all (fun fn => isFile fs (withFileName p fn)) then
      match find_cue_hash fs content p with
      | .error e => .error e
      | .ok none => .ok .Unverified
      | .ok (some h) => .ok (if is_rom fs h then .Verified else .Unverified)
    else .ok .Broken

/-- `DumpManager::verify_chd` as written in the source: create a temp
directory and return `Broken` unconditionally. -/
def verify_chd (fs : FSState) (_p : FilePath0) : Except VerifyErr ROMStatus :=
  if fs.tempDirOk then .ok .Broken else .error .ioError

/-- `DumpManager::verify_file`: dispatch on the extension. -/
def verify_file (fs : FSState) (p : FilePath0) : Except VerifyErr ROMStatus :=
  match fileExtension p.file with
  | none => .ok .Unverified
  | some ext =>
    if ext = "cue".data then verify_cue fs p
    else if ext = "chd".data then verify_chd fs p
    else if ext = "bin".data || ext = "iso".data then verify_standard_file fs p
    else .ok .Unverified

/-- Modelled from the spec: the `.chd` handling §4.8 describes ("decompress
via the external tool into a temp directory and delegate to the underlying
cuesheet/bin verification; on tool failure, `Broken`") does not exist in
`dump_manager.rs` (`verify_chd` is a stub); `chdExtract` stands for the
opaque `chdman` decompression, yielding the extracted image path. -/
def verify_chd_spec (fs : FSState) (chdExtract : FilePath0 → Option FilePath0)
    (p : FilePath0) : Except VerifyErr ROMStatus :=
  match chdExtract p with
  | none => .ok .Broken
  | some q => verify_file fs q

/-! ## Definitions: concrete filesystem sample for the verifier -/

/-- A `.chd` dump path. -/
def chdPath : FilePath0 := { dir := [], file := "x.chd".data }

/-- The image the external tool would extract from `x.chd`. -/
def binPath : FilePath0 := { dir := ["tmp".data], file := "x.bin".data }

/-- A `.cue` dump path. -/
def cuePath : FilePath0 := { dir := [], file := "Alpha.cue".data }

/-- The contents of `Alpha.cue`. -/
def cueContent : List Char := "FILE \"Alpha.bin\" BINARY\nTRACK 01 MODE1/2048".data

/-- The neutralized form of `cueContent` against stem `Alpha`. -/
def cueNeut : List Char := "FILE \"$.bin\" BINARY\nTRACK 01 MODE1/2048".data

/-- An environment in which the extracted `.bin` hashes to a known ROM and
`TempDir::new` succeeds. -/
def fs9 : FSState :=
  { files := [(binPath, "D".data)], romSha1s := [[1]], cues := [],
    sha1fn := fun _ => [1], tempDirOk := true }

/-- The external tool succeeding on `x.chd`. -/
def chdExtract9 : FilePath0 → Option FilePath0 := fun _ => some binPath

/-- An environment holding `Alpha.cue`, its sibling track file, and the
matching cuesheet record whose reference SHA-1 is a known ROM. -/
def fsCue : FSState :=
  { files := [(cuePath, cueContent),
              ({ dir := [], file := "Alpha.bin".data }, "DATA".data)],
    romSha1s := [[9]], cues := [(cueNeut, [9])],
    sha1fn := fun _ => [0], tempDirOk := true }

/-! ## Definitions: concrete sample data for witnesses and counterexamples -/

/-- A ROM named after its game, as in spec scenario 1. -/
def romAlphaCue : ROM :=
  { name := "Alpha.cue".data, status := none, size := 88, crc32 := 1, md5 := [0],
    sha1 := [0], sha256 := none }

/-- The stored row for `romAlphaCue`: its name compresses to `"$c"`. -/
def romAlphaCueRow : ROM := { romAlphaCue with name := "$c".data }

/-- Stored game with a non-empty category set. -/
def c2stored : StoredGame :=
  { name := "Alpha".data, revision := 5, catRows := [.Games], romRows := [romAlphaCueRow] }

/-- The same game re-parsed with only its category changed. -/
def c2parsed : Game :=
  { name := "Alpha".data, categories := [.Demos], roms := [romAlphaCue] }

/-- Stored game with an empty category set. -/
def c10stored : StoredGame :=
  { name := "Alpha".data, revision := 3, catRows := [], romRows := [romAlphaCueRow] }

/-- The same game re-parsed with a category added. -/
def c10parsed : Game :=
  { name := "Alpha".data, categories := [.Games], roms := [romAlphaCue] }

/-- A game whose single ROM is literally named `"$c"`: the stored name
decompresses to `"A.cue"`, not back to `"$c"`. -/
def gDollar : Game :=
  { name := "A".data, categories := [],
    roms := [{ name := "$c".data, status := none, size := 1, crc32 := 0, md5 := [],
               sha1 := [1], sha256 := none }] }

/-- A well-behaved parsed game (names survive the codec round-trip). -/
def gNice : Game :=
  { name := "Alpha".data, categories := [.Games], roms := [romAlphaCue] }

/-- Two ROMs with identical `size`/`crc32`/`md5`/`sha1` but different
names: distinct under the derived full-field equality, equal under the
4-tuple content key. -/
def romTwinA : ROM :=
  { name := "a.bin".data, status := none, size := 7, crc32 := 2, md5 := [3],
    sha1 := [4], sha256 := none }

/-- See `romTwinA`. -/
def romTwinB : ROM := { romTwinA with name := "b.bin".data }

/-- A parsed game carrying both twin ROMs. -/
def c6game : Game := { name := "B".data, categories := [], roms := [romTwinA, romTwinB] }

/-! ## Theorems about `listReplace` and the codec -/

theorem replaceFuel_congr (n r : List Char) :
    ∀ f₁ f₂ h, h.length < f₁ → h.length < f₂ →
      replaceFuel n r f₁ h = replaceFuel n r f₂ h := by
  intro f₁
  induction f₁ with
  | zero => intro f₂ h h1 h2; omega
  | succ a ih =>
    intro f₂ h h1 h2
    cases f₂ with
    | zero => omega
    | succ b =>
      cases n with
      | nil =>
        cases h with
        | nil => rfl
        | cons c t =>
          show r ++ c :: replaceFuel [] r a t = r ++ c :: replaceFuel [] r b t
          rw [ih b t (by simp at h1 ⊢; omega) (by simp at h2 ⊢; omega)]
      | cons n0 ns =>
        cases h with
        | nil => rfl
        | cons c t =>
          show (if (n0 :: ns).isPrefixOf (c :: t) then
              r ++ replaceFuel (n0 :: ns) r a (t.drop ns.length)
            else c :: replaceFuel (n0 :: ns) r a t) =
            (if (n0 :: ns).isPrefixOf (c :: t) then
              r ++ replaceFuel (n0 :: ns) r b (t.drop ns.length)
            else c :: replaceFuel (n0 :: ns) r b t)
          have hd : (t.drop ns.length).length ≤ t.length := by
            rw [List.length_drop]; omega
          have hlt : t.length < a := by simp at h1; omega
          have hlt2 : t.length < b := by simp at h2; omega
          by_cases hp : (n0 :: ns).isPrefixOf (c :: t)
          · simp only [hp, if_true]
            rw [ih b (t.drop ns.length) (by omega) (by omega)]
          · simp only [hp, Bool.false_eq_true, if_false]
            rw [ih b t hlt hlt2]

theorem listReplace_nil_nil (r : List Char) : listReplace [] [] r = r := rfl

theorem listReplace_nil_cons (n0 : Char) (ns r : List Char) :
    listReplace [] (n0 :: ns) r = [] := rfl

theorem listReplace_cons_nil (c : Char) (t r : List Char) :
    listReplace (c :: t) [] r = r ++ c :: listReplace t [] r := rfl

theorem listReplace_cons_cons (c : Char) (t : List Char) (n0 : Char) (ns r : List Char) :
    listReplace (c :: t) (n0 :: ns) r =
      if (n0 :: ns).isPrefixOf (c :: t) then
        r ++ listReplace (t.drop ns.length) (n0 :: ns) r
      else c :: listReplace t (n0 :: ns) r := by
  show (if (n0 :: ns).isPrefixOf (c :: t) then
      r ++ replaceFuel (n0 :: ns) r (t.length + 1) (t.drop ns.length)
    else c :: replaceFuel (n0 :: ns) r (t.length + 1) t) = _
  have hd : (t.drop ns.length).length ≤ t.length := by
    rw [List.length_drop]; omega
  by_cases hp : (n0 :: ns).isPrefixOf (c :: t)
  · simp only [hp, if_true, listReplace]
    rw [replaceFuel_congr (n0 :: ns) r (t.length + 1) ((t.drop ns.length).length + 1)
        (t.drop ns.length) (by omega) (by omega)]
  · simp only [hp, Bool.false_eq_true, if_false, listReplace]

theorem hashExpand_append (g a b : List Char) :
    hashExpand g (a ++ b) = hashExpand g a ++ hashExpand g b := by
  induction a with
  | nil => rfl
  | cons c t ih => simp [hashExpand, ih]

theorem hashExpand_of_not_mem (g : List Char) {l : List Char} (h : '#' ∉ l) :
    hashExpand g l = l := by
  induction l with
  | nil => rfl
  | cons c t ih =>
    have hc : ¬(c = '#') := fun hc => h (hc ▸ List.mem_cons_self c t)
    have ht : '#' ∉ t := fun hx => h (List.mem_cons_of_mem c hx)
    simp [hashExpand, hc, ih ht]

theorem listReplace_hash (g : List Char) :
    ∀ h, listReplace h ['#'] g = hashExpand g h := by
  intro h
  induction h with
  | nil => rfl
  | cons c t ih =>
    rw [listReplace_cons_cons]
    by_cases hc : c = '#'
    · subst hc
      have hp : (['#'] : List Char).isPrefixOf ('#' :: t) = true := by
        simp [List.isPrefixOf]
      simp [hp, hashExpand, ih]
    · have hp : (['#'] : List Char).isPrefixOf (c :: t) = false := by
        simp [List.isPrefixOf]
        exact fun he => hc he.symm
      simp [hp, hashExpand, hc, ih]

theorem hashExpand_listReplace (g : List Char) :
    ∀ N h, h.length ≤ N → '#' ∉ h → hashExpand g (listReplace h g ['#']) = h := by
  intro N
  induction N with
  | zero =>
    intro h hl _
    have hnil : h = [] := List.eq_nil_of_length_eq_zero (Nat.le_zero.mp hl)
    subst hnil
    cases g with
    | nil => simp [listReplace_nil_nil, hashExpand]
    | cons n0 ns => simp [listReplace_nil_cons, hashExpand]
  | succ N ih =>
    intro h hl hm
    cases h with
    | nil =>
      cases g with
      | nil => simp [listReplace_nil_nil, hashExpand]
      | cons n0 ns => simp [listReplace_nil_cons, hashExpand]
    | cons c t =>
      have hc : ¬(c = '#') := fun hc => hm (hc ▸ List.mem_cons_self c t)
      have hmt : '#' ∉ t := fun hx => hm (List.mem_cons_of_mem c hx)
      have hlt : t.length ≤ N := by simp at hl; omega
      cases g with
      | nil =>
        rw [listReplace_cons_nil]
        show hashExpand [] ('#' :: c :: listReplace t [] ['#']) = c :: t
        simp [hashExpand, hc]
        exact ih t hlt hmt
      | cons n0 ns =>
        rw [listReplace_cons_cons]
        by_cases hp : (n0 :: ns).isPrefixOf (c :: t)
        · simp only [hp, if_true]
          have hpre : (n0 :: ns) <+: (c :: t) := List.isPrefixOf_iff_prefix.mp hp
          have heq : (n0 :: ns) ++ List.drop (n0 :: ns).length (c :: t) = c :: t :=
            List.prefix_iff_eq_append.mp hpre
          have hd : (t.drop ns.length).length ≤ N := by
            rw [List.length_drop]; omega
          have hmd : '#' ∉ t.drop ns.length := fun hx => hmt (List.drop_subset _ _ hx)
          show hashExpand (n0 :: ns) ('#' :: listReplace (t.drop ns.length) (n0 :: ns) ['#'])
              = c :: t
          simp only [hashExpand, if_pos rfl]
          rw [ih (t.drop ns.length) hd hmd]
          simpa using heq
        · simp only [hp, Bool.false_eq_true, if_false]
          show hashExpand (n0 :: ns) (c :: listReplace t (n0 :: ns) ['#']) = c :: t
          simp only [hashExpand, if_neg hc]
          rw [ih t hlt hmt]
          simp

/-- Inverting a replacement: because the haystack contains no `'#'`, every
`'#'` in `listReplace h g ['#']` marks exactly one replaced occurrence of
`g`, and substituting `g` back recovers the original. -/
theorem listReplace_roundtrip (g : List Char) {h : List Char} (hm : '#' ∉ h) :
    listReplace (listReplace h g ['#']) ['#'] g = h := by
  rw [listReplace_hash]
  exact hashExpand_listReplace g h.length h le_rfl hm

theorem mem_listReplace (x : Char) :
    ∀ N h n r, h.length ≤ N → x ∈ listReplace h n r → x ∈ r ∨ x ∈ h := by
  intro N
  induction N with
  | zero =>
    intro h n r hl hx
    have hnil : h = [] := List.eq_nil_of_length_eq_zero (Nat.le_zero.mp hl)
    subst hnil
    cases n with
    | nil => exact Or.inl (by simpa [listReplace_nil_nil] using hx)
    | cons n0 ns => simp [listReplace_nil_cons] at hx
  | succ N ih =>
    intro h n r hl hx
    cases h with
    | nil =>
      cases n with
      | nil => exact Or.inl (by simpa [listReplace_nil_nil] using hx)
      | cons n0 ns => simp [listReplace_nil_cons] at hx
    | cons c t =>
      have hlt : t.length ≤ N := by simp at hl; omega
      cases n with
      | nil =>
        rw [listReplace_cons_nil] at hx
        rcases List.mem_append.mp hx with hr | hct
        · exact Or.inl hr
        · rcases List.mem_cons.mp hct with hc | hrec
          · exact Or.inr (hc ▸ List.mem_cons_self c t)
          · rcases ih t [] r hlt hrec with hr | ht
            · exact Or.inl hr
            · exact Or.inr (List.mem_cons_of_mem c ht)
      | cons n0 ns =>
        rw [listReplace_cons_cons] at hx
        by_cases hp : (n0 :: ns).isPrefixOf (c :: t)
        · rw [if_pos hp] at hx
          rcases List.mem_append.mp hx with hr | hrec
          · exact Or.inl hr
          · have hd : (t.drop ns.length).length ≤ N := by
              rw [List.length_drop]; omega
            rcases ih (t.drop ns.length) (n0 :: ns) r hd hrec with hr | ht
            · exact Or.inl hr
            · exact Or.inr (List.mem_cons_of_mem c (List.drop_subset _ _ ht))
        · rw [if_neg hp] at hx
          rcases List.mem_cons.mp hx with hc | hrec
          · exact Or.inr (hc ▸ List.mem_cons_self c t)
          · rcases ih t (n0 :: ns) r hlt hrec with hr | ht
            · exact Or.inl hr
            · exact Or.inr (List.mem_cons_of_mem c ht)

/-- A string that both starts with `"# (Track "` and ends with `").bin"` has
length at least 14 (the two patterns cannot overlap). -/
theorem track_shape_length {s : List Char}
    (hp : "# (Track ".data <+: s) (hs : ").bin".data <:+ s) : 14 ≤ s.length := by
  by_contra hlen
  push_neg at hlen
  have h9 : 9 ≤ s.length := by
    have := hp.length_le
    simpa using this
  obtain ⟨u, hu⟩ := hs
  have hul : u.length + 5 = s.length := by
    have := congrArg List.length hu
    simpa using this
  have hidx9 : u.length < ("# (Track ".data : List Char).length := by simp; omega
  have h1 : s[u.length]? = some ')' := by
    rw [← hu, List.getElem?_append_right (Nat.le_refl u.length)]
    simp
  have heqs : "# (Track ".data ++ s.drop 9 = s := List.prefix_iff_eq_append.mp hp
  have h2 : s[u.length]? = ("# (Track ".data : List Char)[u.length]? := by
    conv_lhs => rw [← heqs]
    rw [List.getElem?_append_left hidx9]
  rw [h1] at h2
  have hk : u.length ≥ 4 := by omega
  have hk2 : u.length ≤ 8 := by simp at hidx9; omega
  set k := u.length with hkdef
  interval_cases k <;> exact absurd h2.symm (by decide)

/-- Decomposition of a string that starts with `"# (Track "` and ends with
`").bin"`: it is exactly the prefix, the middle slice that
`compress_rom_name` extracts, and the suffix. -/
theorem track_shape {s : List Char}
    (hp : "# (Track ".data <+: s) (hs : ").bin".data <:+ s) :
    s = "# (Track ".data ++ (s.drop 9).take (s.length - 14) ++ ").bin".data := by
  have hlen : 14 ≤ s.length := track_shape_length hp hs
  have heqs : "# (Track ".data ++ s.drop 9 = s := List.prefix_iff_eq_append.mp hp
  obtain ⟨u, hu⟩ := hs
  have hul : u.length + 5 = s.length := by
    have := congrArg List.length hu
    simpa using this
  have htd : (s.drop 9).take (s.length - 14) ++ (s.drop 9).drop (s.length - 14) = s.drop 9 :=
    List.take_append_drop _ _
  have hs2 : ("# (Track ".data ++ (s.drop 9).take (s.length - 14)) ++
      (s.drop 9).drop (s.length - 14) = s := by
    rw [List.append_assoc, htd, heqs]
  have hlen2 : u.length = ("# (Track ".data ++ (s.drop 9).take (s.length - 14)).length := by
    simp [List.length_take, List.length_drop]
    omega
  have hdropEq : ").bin".data = (s.drop 9).drop (s.length - 14) :=
    List.append_inj_right (hu.trans hs2.symm) hlen2
  calc s = ("# (Track ".data ++ (s.drop 9).take (s.length - 14)) ++
      (s.drop 9).drop (s.length - 14) := hs2.symm
    _ = "# (Track ".data ++ (s.drop 9).take (s.length - 14) ++ ").bin".data := by
      rw [← hdropEq]

/-- **C1 (counterexample).** The round-trip law fails as stated: a ROM whose
name is literally `"$c"` compresses to itself but decompresses to
`"A.cue"`. -/
theorem C1_counterexample :
    decompress_rom_name (compress_rom_name "$c".data "A".data) "A".data ≠ "$c".data := by
  decide

/-- **C1 (amended).** For every pair of strings, decompressing the result of
compressing `rom_name` against `game_name` returns `rom_name`, provided
`rom_name` contains neither `'#'` nor `'$'` and `game_name` occurs at most
once in `rom_name` (the replaced intermediate contains at most one `'#'`).
Without these provisos the law fails (see the counterexample). -/
theorem C1_roundtrip (r g : List Char) (h1 : '#' ∉ r) (h2 : '$' ∉ r)
    (h3 : (listReplace r g ['#']).count '#' ≤ 1) :
    decompress_rom_name (compress_rom_name r g) g = r := by
  unfold compress_rom_name
  set s := listReplace r g ['#'] with hsdef
  have hkey : hashExpand g s = r := hashExpand_listReplace g r.length r le_rfl h1
  have hds : '$' ∉ s := by
    intro hx
    rcases mem_listReplace '$' r.length r g ['#'] le_rfl (hsdef ▸ hx) with hr | hr
    · simp at hr
    · exact h2 hr
  by_cases htr : ("# (Track ".data.isPrefixOf s && ").bin".data.isSuffixOf s) = true
  · rw [if_pos htr]
    rw [Bool.and_eq_true] at htr
    have hp : "# (Track ".data <+: s := List.isPrefixOf_iff_prefix.mp htr.1
    have hsu : ").bin".data <:+ s := List.isSuffixOf_iff_suffix.mp htr.2
    have hshape := track_shape hp hsu
    set mid := (s.drop 9).take (s.length - 14) with hmid
    have hnm : '#' ∉ mid := by
      intro hx
      have hc1 : ("# (Track ".data : List Char).count '#' = 1 := by decide
      have hc2 : (").bin".data : List Char).count '#' = 0 := by decide
      have : s.count '#' = 1 + mid.count '#' := by
        conv_lhs => rw [hshape]
        simp [List.count_append, hc1, hc2]
        omega
      have hpos : 0 < mid.count '#' := List.count_pos_iff.mpr hx
      omega
    have hdec : decompress_rom_name ("$T".data ++ mid) g =
        g ++ " (Track ".data ++ mid ++ ").bin".data := by
      show decompress_rom_name ('$' :: 'T' :: mid) g = _
      unfold decompress_rom_name
      rw [if_neg (by simp), if_neg (by simp), if_neg (by simp),
        if_pos (by simp [List.isPrefixOf])]
      rfl
    rw [hdec]
    conv_rhs => rw [← hkey, hshape]
    rw [hashExpand_append, hashExpand_append]
    rw [hashExpand_of_not_mem g hnm]
    rw [show hashExpand g "# (Track ".data = g ++ " (Track ".data from rfl]
    rw [show hashExpand g ").bin".data = ").bin".data from rfl]
  · rw [if_neg htr]
    by_cases e1 : s = "#.cue".data
    · rw [if_pos e1]
      have : decompress_rom_name "$c".data g = g ++ ".cue".data := by
        unfold decompress_rom_name
        rw [if_pos rfl]
      rw [this, ← hkey, e1]
      rfl
    · rw [if_neg e1]
      by_cases e2 : s = "#.iso".data
      · rw [if_pos e2]
        have : decompress_rom_name "$i".data g = g ++ ".iso".data := by
          unfold decompress_rom_name
          rw [if_neg (by decide), if_pos rfl]
        rw [this, ← hkey, e2]
        rfl
      · rw [if_neg e2]
        by_cases e3 : s = "#.bin".data
        · rw [if_pos e3]
          have : decompress_rom_name "$b".data g = g ++ ".bin".data := by
            unfold decompress_rom_name
            rw [if_neg (by decide), if_neg (by decide), if_pos rfl]
          rw [this, ← hkey, e3]
          rfl
        · rw [if_neg e3]
          unfold decompress_rom_name
          have n1 : s ≠ "$c".data := by
            intro he
            exact hds (he ▸ (by decide : '$' ∈ ("$c".data : List Char)))
          have n2 : s ≠ "$i".data := by
            intro he
            exact hds (he ▸ (by decide : '$' ∈ ("$i".data : List Char)))
          have n3 : s ≠ "$b".data := by
            intro he
            exact hds (he ▸ (by decide : '$' ∈ ("$b".data : List Char)))
          have n4 : ¬("$T".data.isPrefixOf s = true) := by
            intro hpf
            have := (List.isPrefixOf_iff_prefix.mp hpf).subset
            exact hds (this (by decide : '$' ∈ ("$T".data : List Char)))
          rw [if_neg n1, if_neg n2, if_neg n3, if_neg n4]
          rw [listReplace_hash]
          exact hkey

/-! ## Theorems about the import model -/

theorem hsInsert_nodup [DecidableEq α] {l : List α} (h : l.Nodup) (a : α) :
    (hsInsert l a).Nodup := by
  unfold hsInsert
  by_cases hm : a ∈ l
  · rw [if_pos hm]; exact h
  · rw [if_neg hm]; simp [List.nodup_append, h, hm]

theorem foldl_hsInsert_nodup [DecidableEq α] (l : List α) :
    ∀ acc : List α, acc.Nodup → (l.foldl hsInsert acc).Nodup := by
  induction l with
  | nil => intro acc h; exact h
  | cons x xs ih =>
    intro acc h
    exact ih (hsInsert acc x) (hsInsert_nodup h x)

theorem loadRoms_nodup (s : StoredGame) : (Game.loadRoms s).Nodup :=
  foldl_hsInsert_nodup _ [] List.nodup_nil

theorem loadCategories_nodup (s : StoredGame) : (Game.loadCategories s).Nodup :=
  foldl_hsInsert_nodup _ [] List.nodup_nil

theorem hsEq_spec [DecidableEq α] {a b : List α} (h : hsEq a b = true) :
    a.length = b.length ∧ a ⊆ b := by
  unfold hsEq at h
  rw [Bool.and_eq_true] at h
  refine ⟨by simpa using h.1, ?_⟩
  intro x hx
  have := List.all_eq_true.mp h.2 x hx
  simpa using this

theorem perm_of_hsEq [DecidableEq α] {a b : List α} (ha : a.Nodup) (h : hsEq a b = true) :
    List.Perm a b := by
  obtain ⟨hl, hsub⟩ := hsEq_spec h
  exact (List.subperm_of_subset ha hsub).perm_of_length_le (by omega)

/-- Importing a single parsed game into a store holding exactly the
matching stored game. -/
theorem import_single_found (s : StoredGame) (g : Game) (h1 : s.name = g.name) :
    import_datafile_games [s] [g] =
      .ok ([(Game.update s g).1],
        if (Game.update s g).2 then ⟨0, 1, 0, 0⟩ else ⟨1, 0, 0, 0⟩) := by
  have hf : findStored [s] g.name = some s := by
    simp [findStored, List.find?, h1]
  have he : eraseStored [s] g.name = [] := by
    simp [eraseStored, List.eraseP, h1]
  unfold import_datafile_games
  rw [importGo, if_neg (by simp), hf]
  dsimp only
  rw [he, importGo]
  by_cases hb : (Game.update s g).2
  · simp [hb]
  · simp [hb]

/-- `Game::update` on a category-only difference (ROM sets equal as
`HashSet`s): rows are replaced by the new category set, the revision is
untouched, and the returned flag is `true` exactly when the old category
set was non-empty. -/
theorem update_category_only (s : StoredGame) (g : Game)
    (h2 : hsEq (Game.loadRoms s) g.roms = true)
    (h3 : hsEq (Game.loadCategories s) g.categories = false) :
    Game.update s g =
      ({ name := s.name, revision := s.revision, catRows := g.categories,
         romRows := s.romRows }, !(Game.loadCategories s).isEmpty) := by
  unfold Game.update
  simp [h2, h3]

/-- Witness for C1: the amended round-trip at a concrete input. -/
theorem C1_roundtrip_witness :
    ('#' ∉ "Alpha (Track 1).bin".data) ∧ ('$' ∉ "Alpha (Track 1).bin".data) ∧
      (listReplace "Alpha (Track 1).bin".data "Alpha".data ['#']).count '#' ≤ 1 ∧
      decompress_rom_name
        (compress_rom_name "Alpha (Track 1).bin".data "Alpha".data) "Alpha".data
        = "Alpha (Track 1).bin".data :=
  ⟨by decide, by decide, by decide,
    C1_roundtrip "Alpha (Track 1).bin".data "Alpha".data (by decide) (by decide) (by decide)⟩

/-- **C7.** For every stored datafile (resp. cuesheet console record), an
update run performs a refresh iff `now - last_updated ≥ min_update_delay`,
where the delay defaults to two days for the catalog and one week for
cuesheets; after any successful touch (import or no-op) `last_updated` is
set to `now`. -/
theorem C7_freshness (now : Int) (df : DatafileMeta) (hv : String) (lu : Int) :
    ((update_redump_console now catalog_min_update_delay df hv).1 ≠ .skippedFresh
        ↔ now - df.last_updated ≥ catalog_min_update_delay)
    ∧ ((update_redump_console now catalog_min_update_delay df hv).1 ≠ .skippedFresh →
        (update_redump_console now catalog_min_update_delay df hv).2.last_updated = now)
    ∧ ((update_redump_console now catalog_min_update_delay df hv).1 = .skippedFresh →
        (update_redump_console now catalog_min_update_delay df hv).2 = df)
    ∧ ((update_redump_cuesheets now cue_update_delay lu).1 = true
        ↔ now - lu ≥ cue_update_delay)
    ∧ ((update_redump_cuesheets now cue_update_delay lu).1 = true →
        (update_redump_cuesheets now cue_update_delay lu).2 = now)
    ∧ catalog_min_update_delay = 2 * 86400000
    ∧ cue_update_delay = 7 * 86400000 := by
  refine ⟨?_, ?_, ?_, ?_, ?_, by norm_num [catalog_min_update_delay],
    by norm_num [cue_update_delay]⟩
  · by_cases hlt : now < df.last_updated + catalog_min_update_delay
    · simp only [update_redump_console, if_pos hlt]
      simp
      omega
    · by_cases hv2 : df.version = hv
      · simp only [update_redump_console, if_neg hlt, if_pos hv2]
        simp
        omega
      · simp only [update_redump_console, if_neg hlt, if_neg hv2]
        simp
        omega
  · by_cases hlt : now < df.last_updated + catalog_min_update_delay
    · simp [update_redump_console, if_pos hlt]
    · by_cases hv2 : df.version = hv
      · simp [update_redump_console, if_neg hlt, if_pos hv2]
      · simp [update_redump_console, if_neg hlt, if_neg hv2]
  · by_cases hlt : now < df.last_updated + catalog_min_update_delay
    · simp [update_redump_console, if_pos hlt]
    · by_cases hv2 : df.version = hv
      · simp [update_redump_console, if_neg hlt, if_pos hv2]
      · simp [update_redump_console, if_neg hlt, if_neg hv2]
  · by_cases hlt : now < lu + cue_update_delay
    · simp [update_redump_cuesheets, if_pos hlt]
      omega
    · simp [update_redump_cuesheets, if_neg hlt]
      omega
  · by_cases hlt : now < lu + cue_update_delay
    · simp [update_redump_cuesheets, if_pos hlt]
    · simp [update_redump_cuesheets, if_neg hlt]

/-- Witness for C7 at a concrete instant: exactly two days after
`last_updated = 0` the console is refreshed and its timestamp becomes
`now`. -/
theorem C7_freshness_witness :
    (update_redump_console 172800000 catalog_min_update_delay ⟨"", 0⟩ "v").1
        ≠ .skippedFresh
    ∧ (update_redump_console 172800000 catalog_min_update_delay ⟨"", 0⟩ "v").2.last_updated
        = 172800000 :=
  ⟨by decide, (C7_freshness 172800000 ⟨"", 0⟩ "v" 0).2.1 (by decide)⟩

/-- **C8.** The claim says `neutralize` never fails and drops blank lines;
in the source the filter computes `v.find(' ').unwrap()` on every trimmed
line, so an interior blank line (or any line without a space) panics.  The
model returns `none` (panic) on such input, while on the spec's own example
input it produces exactly the documented output. -/
theorem C8_neutralize_panics :
    neutralize "FILE \"A.bin\" BINARY\n\nTRACK 01 MODE1/2048".data "A".data = none ∧
    neutralize
        "FILE \"Alpha.bin\" BINARY\nTRACK 01 MODE1/2048\nINDEX 01 00:00:00\nREM comment\n".data
        "Alpha".data
      = some "FILE \"$.bin\" BINARY\nTRACK 01 MODE1/2048\nINDEX 01 00:00:00".data :=
  ⟨by decide, by decide⟩

/-- **C2 (counterexample).** A category-only edit (stored categories
non-empty, ROM rows untouched) makes `Game::update` return `true`, so
the importer reports `changed = 1`, not the claimed `changed = 0`. -/
theorem C2_counterexample :
    import_datafile_games [c2stored] [c2parsed] =
      .ok ([{ name := "Alpha".data, revision := 5, catRows := [Category.Demos],
              romRows := [romAlphaCueRow] }], ⟨0, 1, 0, 0⟩)
    ∧ (Counters.mk 0 1 0 0).changed ≠ 0 :=
  ⟨by decide, by decide⟩

/-- **C2 (amended).** A category-only change (stored and parsed ROM sets
equal as `HashSet`s, category sets different) keeps the revision, replaces
the category rows with the new set, and is counted as changed exactly when
the stored category set was non-empty (`changed = 1`; only an
empty-to-non-empty transition reports `changed = 0`). -/
theorem C2_category_only (s : StoredGame) (g : Game)
    (h1 : s.name = g.name)
    (h2 : hsEq (Game.loadRoms s) g.roms = true)
    (h3 : hsEq (Game.loadCategories s) g.categories = false) :
    import_datafile_games [s] [g] =
      .ok ([{ name := s.name, revision := s.revision, catRows := g.categories,
              romRows := s.romRows }],
        if (Game.loadCategories s).isEmpty then ⟨1, 0, 0, 0⟩ else ⟨0, 1, 0, 0⟩) := by
  rw [import_single_found s g h1, update_category_only s g h2 h3]
  by_cases hE : (Game.loadCategories s).isEmpty
  · simp [hE]
  · simp [hE]

/-- Witness for the amended C2 at the concrete category-only edit. -/
theorem C2_category_only_witness :
    c2stored.name = c2parsed.name
    ∧ hsEq (Game.loadRoms c2stored) c2parsed.roms = true
    ∧ hsEq (Game.loadCategories c2stored) c2parsed.categories = false
    ∧ import_datafile_games [c2stored] [c2parsed] =
        .ok ([{ name := c2stored.name, revision := c2stored.revision,
                catRows := c2parsed.categories, romRows := c2stored.romRows }],
          if (Game.loadCategories c2stored).isEmpty then ⟨1, 0, 0, 0⟩ else ⟨0, 1, 0, 0⟩) :=
  ⟨by decide, by decide, by decide,
    C2_category_only c2stored c2parsed (by decide) (by decide) (by decide)⟩

/-- **C10.** When the stored category set is empty and the parsed game
supplies a different (non-empty) set while the ROM sets are unchanged,
`Game::update` installs the new category rows yet returns `false`: so the
importer counts the game as unchanged (`unchanged = 1`, `changed = 0`)
although rows were written. -/
theorem C10_empty_category_unchanged (s : StoredGame) (g : Game)
    (h1 : s.name = g.name)
    (h2 : hsEq (Game.loadRoms s) g.roms = true)
    (h3 : s.catRows = [])
    (h4 : g.categories ≠ []) :
    import_datafile_games [s] [g] =
      .ok ([{ name := s.name, revision := s.revision, catRows := g.categories,
              romRows := s.romRows }], ⟨1, 0, 0, 0⟩) := by
  have hcats : Game.loadCategories s = [] := by simp [Game.loadCategories, h3]
  have h3' : hsEq (Game.loadCategories s) g.categories = false := by
    rw [hcats]
    unfold hsEq
    cases hg : g.categories with
    | nil => exact absurd hg h4
    | cons x xs => simp
  rw [import_single_found s g h1, update_category_only s g h2 h3']
  simp [hcats]

/-- Witness for C10 at the concrete empty-to-non-empty category edit. -/
theorem C10_empty_category_unchanged_witness :
    c10stored.name = c10parsed.name
    ∧ hsEq (Game.loadRoms c10stored) c10parsed.roms = true
    ∧ c10stored.catRows = []
    ∧ c10parsed.categories ≠ []
    ∧ import_datafile_games [c10stored] [c10parsed] =
        .ok ([{ name := c10stored.name, revision := c10stored.revision,
                catRows := c10parsed.categories, romRows := c10stored.romRows }],
          ⟨1, 0, 0, 0⟩) :=
  ⟨by decide, by decide, by decide, by decide,
    C10_empty_category_unchanged c10stored c10parsed (by decide) (by decide) (by decide)
      (by decide)⟩

/-- **C4.** `Game::update` bumps the revision by exactly one iff the
multiset of `(size, crc32, md5, sha1)` tuples of the stored ROM set differs
from that of the parsed ROM set, and leaves it unchanged otherwise — ROM
names, statuses and `sha256` never influence the revision. -/
theorem C4_revision_semantics (s : StoredGame) (g : Game) :
    (Game.update s g).1.revision =
      (if keysPerm ((Game.loadRoms s).map ROM.key) (g.roms.map ROM.key) then s.revision
       else s.revision + 1) := by
  by_cases he : hsEq (Game.loadRoms s) g.roms = true
  · have hp : List.Perm (Game.loadRoms s) g.roms := perm_of_hsEq (loadRoms_nodup s) he
    have hk : keysPerm ((Game.loadRoms s).map ROM.key) (g.roms.map ROM.key) = true :=
      List.isPerm_iff.mpr (hp.map ROM.key)
    simp [Game.update, he, hk]
  · have he' : hsEq (Game.loadRoms s) g.roms = false := Bool.eq_false_iff.mpr he
    by_cases hl : (Game.loadRoms s).length = g.roms.length
    · by_cases hk : keysPerm ((Game.loadRoms s).map ROM.key) (g.roms.map ROM.key) = true
      · simp [Game.update, he', hl, hk]
      · have hk' : keysPerm ((Game.loadRoms s).map ROM.key) (g.roms.map ROM.key) = false :=
          Bool.eq_false_iff.mpr hk
        simp [Game.update, he', hl, hk']
    · have hk : keysPerm ((Game.loadRoms s).map ROM.key) (g.roms.map ROM.key) = false := by
        rw [Bool.eq_false_iff]
        intro hkp
        have hperm := List.isPerm_iff.mp hkp
        have := hperm.length_eq
        simp at this
        exact hl this
      simp [Game.update, he', hl, hk]

theorem foldl_hsInsert_fresh [DecidableEq α] :
    ∀ (l acc : List α), l.Nodup → (∀ x ∈ l, x ∉ acc) → l.foldl hsInsert acc = acc ++ l := by
  intro l
  induction l with
  | nil => intro acc _ _; simp
  | cons x xs ih =>
    intro acc hnd hfresh
    have hx : x ∉ acc := hfresh x (List.mem_cons_self x xs)
    have h1 : hsInsert acc x = acc ++ [x] := by simp [hsInsert, hx]
    show xs.foldl hsInsert (hsInsert acc x) = acc ++ x :: xs
    rw [h1, ih (acc ++ [x]) (List.nodup_cons.mp hnd).2 ?_]
    · simp
    · intro y hy
      simp only [List.mem_append, List.mem_singleton]
      push_neg
      exact ⟨fun hc => hfresh y (List.mem_cons_of_mem x hy) hc,
        fun he => (List.nodup_cons.mp hnd).1 (he ▸ hy)⟩

theorem foldl_hsInsert_nil [DecidableEq α] {l : List α} (h : l.Nodup) :
    l.foldl hsInsert [] = l := by
  simpa using foldl_hsInsert_fresh l [] h (by simp)

theorem hsEq_refl [DecidableEq α] (l : List α) : hsEq l l = true := by
  simp [hsEq, List.all_eq_true]

theorem rowsToRoms_compressed (nm : List Char) (roms : List ROM) (hnd : roms.Nodup)
    (hrt : ∀ r ∈ roms, decompress_rom_name (compress_rom_name r.name nm) nm = r.name) :
    rowsToRoms nm (roms.map (compressROM nm)) = roms := by
  unfold rowsToRoms
  rw [List.map_map]
  have hpt : ∀ r ∈ roms,
      ((fun r => { r with name := decompress_rom_name r.name nm }) ∘ compressROM nm) r
        = id r := by
    intro r hr
    have := hrt r hr
    cases r
    simp_all [compressROM, Function.comp]
  rw [List.map_congr_left hpt, List.map_id]
  exact foldl_hsInsert_nil hnd

theorem update_noop (s : StoredGame) (g : Game)
    (hc : hsEq (Game.loadCategories s) g.categories = true)
    (hr : hsEq (Game.loadRoms s) g.roms = true) :
    Game.update s g = (s, false) := by
  unfold Game.update
  simp [hc, hr]

theorem update_fields (s : StoredGame) (g : Game) :
    (Game.update s g).1.name = s.name
    ∧ ((Game.update s g).1.catRows = s.catRows
          ∧ hsEq (Game.loadCategories s) g.categories = true
        ∨ (Game.update s g).1.catRows = g.categories)
    ∧ ((Game.update s g).1.romRows = s.romRows
          ∧ hsEq (Game.loadRoms s) g.roms = true
        ∨ (Game.update s g).1.romRows = g.roms.map (compressROM s.name)) := by
  refine ⟨rfl, ?_, ?_⟩
  · by_cases hc : hsEq (Game.loadCategories s) g.categories
    · left
      exact ⟨by simp [Game.update, hc], hc⟩
    · right
      simp [Game.update, Bool.eq_false_iff.mpr hc]
  · by_cases hr : hsEq (Game.loadRoms s) g.roms
    · left
      exact ⟨by simp [Game.update, hr], hr⟩
    · right
      simp [Game.update, Bool.eq_false_iff.mpr hr]

theorem selfStable_insert (g : Game) (hndR : g.roms.Nodup) (hndC : g.categories.Nodup)
    (hrt : ∀ r ∈ g.roms, decompress_rom_name (compress_rom_name r.name g.name) g.name = r.name) :
    selfStable g (Game.insert g) := by
  refine ⟨rfl, ?_⟩
  apply update_noop
  · have hcc : Game.loadCategories (Game.insert g) = g.categories := by
      simp only [Game.loadCategories, Game.insert]
      exact foldl_hsInsert_nil hndC
    rw [hcc]
    exact hsEq_refl _
  · have hrr : Game.loadRoms (Game.insert g) = g.roms := by
      simp only [Game.loadRoms, Game.insert]
      exact rowsToRoms_compressed g.name g.roms hndR hrt
    rw [hrr]
    exact hsEq_refl _

theorem selfStable_update (s : StoredGame) (g : Game)
    (hname : s.name = g.name)
    (hndR : g.roms.Nodup) (hndC : g.categories.Nodup)
    (hrt : ∀ r ∈ g.roms, decompress_rom_name (compress_rom_name r.name g.name) g.name = r.name) :
    selfStable g (Game.update s g).1 := by
  obtain ⟨hn, hcats, hroms⟩ := update_fields s g
  refine ⟨by rw [hn, hname], ?_⟩
  apply update_noop
  · rcases hcats with ⟨he, htrue⟩ | he
    · have hsame : Game.loadCategories (Game.update s g).1 = Game.loadCategories s := by
        simp only [Game.loadCategories, he]
      rw [hsame]
      exact htrue
    · have hnew : Game.loadCategories (Game.update s g).1 = g.categories := by
        simp only [Game.loadCategories, he]
        exact foldl_hsInsert_nil hndC
      rw [hnew]
      exact hsEq_refl _
  · rcases hroms with ⟨he, htrue⟩ | he
    · have hsame : Game.loadRoms (Game.update s g).1 = Game.loadRoms s := by
        simp only [Game.loadRoms, he, hn]
      rw [hsame]
      exact htrue
    · have hnew : Game.loadRoms (Game.update s g).1 = g.roms := by
        simp only [Game.loadRoms, he, hn, hname]
        exact rowsToRoms_compressed g.name g.roms hndR hrt
      rw [hnew]
      exact hsEq_refl _

theorem findStored_name {l : List StoredGame} {n : List Char} {s : StoredGame}
    (h : findStored l n = some s) : s.name = n ∧ s ∈ l := by
  constructor
  · have := List.find?_some h
    simpa using this
  · exact List.mem_of_find?_eq_some h

theorem importGo_ok_names :
    ∀ (gs : List Game) (remaining result : List StoredGame) (processed : List (List Char))
      (c : Counters) (st : List StoredGame) (c₁ : Counters),
      importGo gs remaining result processed c = .ok (st, c₁) →
      (gs.map Game.name).Nodup ∧ ∀ n ∈ gs.map Game.name, n ∉ processed := by
  intro gs
  induction gs with
  | nil => intro _ _ _ _ _ _ _; exact ⟨List.nodup_nil, by simp⟩
  | cons g gs ih =>
    intro remaining result processed c st c₁ hok
    rw [importGo] at hok
    by_cases hp : g.name ∈ processed
    · rw [if_pos hp] at hok
      simp at hok
    · rw [if_neg hp] at hok
      have main : ∀ remaining' result' c',
          importGo gs remaining' result' (g.name :: processed) c' = .ok (st, c₁) →
          ((g :: gs).map Game.name).Nodup ∧ ∀ n ∈ (g :: gs).map Game.name, n ∉ processed := by
        intro remaining' result' c' hok'
        obtain ⟨h1, h2⟩ := ih _ _ _ _ _ _ hok'
        constructor
        · rw [List.map_cons, List.nodup_cons]
          exact ⟨fun hmem => h2 _ hmem (List.mem_cons_self _ _), h1⟩
        · intro n hn
          rcases List.mem_cons.mp hn with he | hmem
          · exact he ▸ hp
          · exact fun hc => h2 n hmem (List.mem_cons_of_mem _ hc)
      cases hf : findStored remaining g.name with
      | some s =>
        rw [hf] at hok
        dsimp only at hok
        exact main _ _ _ hok
      | none =>
        rw [hf] at hok
        dsimp only at hok
        exact main _ _ _ hok

theorem importGo_ok_stable :
    ∀ (gs : List Game) (remaining result : List StoredGame) (processed : List (List Char))
      (c : Counters) (st : List StoredGame) (c₁ : Counters),
      (∀ g ∈ gs, g.roms.Nodup ∧ g.categories.Nodup ∧
        ∀ r ∈ g.roms,
          decompress_rom_name (compress_rom_name r.name g.name) g.name = r.name) →
      importGo gs remaining result processed c = .ok (st, c₁) →
      ∃ tail, st = result ++ tail ∧ List.Forall₂ selfStable gs tail := by
  intro gs
  induction gs with
  | nil =>
    intro remaining result processed c st c₁ _ hok
    rw [importGo] at hok
    simp only [Except.ok.injEq, Prod.mk.injEq] at hok
    exact ⟨[], by simp [← hok.1], List.Forall₂.nil⟩
  | cons g gs ih =>
    intro remaining result processed c st c₁ hg hok
    have hghead := hg g (List.mem_cons_self _ _)
    have hgtail : ∀ g' ∈ gs, g'.roms.Nodup ∧ g'.categories.Nodup ∧
        ∀ r ∈ g'.roms,
          decompress_rom_name (compress_rom_name r.name g'.name) g'.name = r.name :=
      fun g' hm => hg g' (List.mem_cons_of_mem _ hm)
    rw [importGo] at hok
    by_cases hp : g.name ∈ processed
    · rw [if_pos hp] at hok
      simp at hok
    · rw [if_neg hp] at hok
      cases hf : findStored remaining g.name with
      | some s =>
        rw [hf] at hok
        dsimp only at hok
        obtain ⟨tail', hst, hF⟩ := ih _ _ _ _ _ _ hgtail hok
        refine ⟨(Game.update s g).1 :: tail', by simp [hst], ?_⟩
        exact List.Forall₂.cons
          (selfStable_update s g (findStored_name hf).1 hghead.1 hghead.2.1 hghead.2.2) hF
      | none =>
        rw [hf] at hok
        dsimp only at hok
        obtain ⟨tail', hst, hF⟩ := ih _ _ _ _ _ _ hgtail hok
        refine ⟨Game.insert g :: tail', by simp [hst], ?_⟩
        exact List.Forall₂.cons (selfStable_insert g hghead.1 hghead.2.1 hghead.2.2) hF

theorem importGo_second_pass :
    ∀ (gs : List Game) (tail : List StoredGame),
      List.Forall₂ selfStable gs tail →
      ∀ (result : List StoredGame) (processed : List (List Char)) (c : Counters),
      (gs.map Game.name).Nodup →
      (∀ n ∈ gs.map Game.name, n ∉ processed) →
      importGo gs tail result processed c =
        .ok (result ++ tail,
          { c with unchanged := c.unchanged + gs.length, removed := 0 }) := by
  intro gs tail hF
  induction hF with
  | nil => intro result processed c _ _; simp [importGo]
  | cons hse hF ih =>
    rename_i g e gs' tail'
    intro result processed c hnd hfresh
    rw [List.map_cons, List.nodup_cons] at hnd
    obtain ⟨hn1, hn2⟩ := hnd
    rw [importGo]
    rw [if_neg (hfresh g.name (by simp))]
    have hf : findStored (e :: tail') g.name = some e := by
      simp [findStored, List.find?, hse.1]
    rw [hf]
    dsimp only
    rw [hse.2]
    have he : eraseStored (e :: tail') g.name = tail' := by
      simp [eraseStored, List.eraseP_cons, hse.1]
    rw [he]
    dsimp only
    rw [ih (result ++ [e]) (g.name :: processed) _ hn2 ?_]
    · simp
      omega
    · intro n hn
      simp only [List.mem_cons]
      push_neg
      constructor
      · intro hc
        exact hn1 (hc ▸ hn)
      · exact hfresh n (by simp [hn])

/-- **C3 (counterexample).** A datafile whose single game owns a ROM
literally named `"$c"`: its stored (compressed) name decompresses to
`"A.cue"`, so on the second import the loaded ROM set differs from the
parsed one, the rows are rewritten, and the game is counted as changed
(`changed = 1`, not 0).  The revision is still 0. -/
theorem C3_counterexample :
    import_datafile_games [] [gDollar] = .ok ([Game.insert gDollar], ⟨0, 0, 1, 0⟩)
    ∧ import_datafile_games [Game.insert gDollar] [gDollar] =
        .ok ([Game.insert gDollar], ⟨0, 1, 0, 0⟩)
    ∧ (Counters.mk 0 1 0 0).changed ≠ 0 :=
  ⟨by decide, by decide, by decide⟩

/-- **C3 (amended).** Importing the same parsed datafile twice in a row
yields, on the second import, `changed = 0`, `added = 0`, `removed = 0`,
`unchanged = |datafile|`, and leaves the entire stored state (in particular
every revision) unchanged — provided every ROM name in the datafile
round-trips through the ROM-name codec against its game's name (parsed
games come from `HashSet`s, hence the `Nodup` hypotheses).  A ROM name that
does not round-trip (e.g. `"$c"`) makes the second import count its game as
changed; see the counterexample. -/
theorem C3_idempotent (stored : List StoredGame) (parsed : List Game)
    (st : List StoredGame) (c : Counters)
    (hg : ∀ g ∈ parsed, g.roms.Nodup ∧ g.categories.Nodup ∧
      ∀ r ∈ g.roms, decompress_rom_name (compress_rom_name r.name g.name) g.name = r.name)
    (h1 : import_datafile_games stored parsed = .ok (st, c)) :
    import_datafile_games st parsed =
      .ok (st, { unchanged := parsed.length, changed := 0, added := 0, removed := 0 }) := by
  obtain ⟨hnd, -⟩ := importGo_ok_names parsed stored [] [] _ st c h1
  obtain ⟨tail, hst, hF⟩ := importGo_ok_stable parsed stored [] [] _ st c hg h1
  have hst' : st = tail := by simpa using hst
  subst hst'
  have h2 := importGo_second_pass parsed st hF [] [] ⟨0, 0, 0, 0⟩ hnd (by simp)
  simpa using h2

/-- Witness for the amended C3: re-importing a well-behaved one-game
datafile reports `{unchanged := 1, changed := 0, added := 0, removed := 0}`
and leaves the stored row bit-identical. -/
theorem C3_idempotent_witness :
    import_datafile_games [] [gNice] = .ok ([Game.insert gNice], ⟨0, 0, 1, 0⟩)
    ∧ import_datafile_games [Game.insert gNice] [gNice] =
        .ok ([Game.insert gNice], ⟨1, 0, 0, 0⟩) :=
  ⟨by decide, by
    have h := C3_idempotent [] [gNice] [Game.insert gNice] ⟨0, 0, 1, 0⟩ (by decide) (by decide)
    simpa using h⟩

theorem importGo_duplicate :
    ∀ (gs : List Game) (remaining result : List StoredGame) (processed : List (List Char))
      (c : Counters),
      ((∃ n, n ∈ gs.map Game.name ∧ n ∈ processed) ∨ ¬(gs.map Game.name).Nodup) →
      ∃ n, importGo gs remaining result processed c = .error (.duplicateGame n) := by
  intro gs
  induction gs with
  | nil =>
    intro _ _ _ _ h
    rcases h with ⟨n, hn, _⟩ | hnd
    · simp at hn
    · simp at hnd
  | cons g gs ih =>
    intro remaining result processed c h
    by_cases hp : g.name ∈ processed
    · exact ⟨g.name, by rw [importGo, if_pos hp]⟩
    · have h' : (∃ n, n ∈ gs.map Game.name ∧ n ∈ g.name :: processed)
          ∨ ¬(gs.map Game.name).Nodup := by
        rcases h with ⟨n, hmem, hproc⟩ | hnd
        · left
          rw [List.map_cons] at hmem
          rcases List.mem_cons.mp hmem with he | hmem'
          · exact absurd (he ▸ hproc) hp
          · exact ⟨n, hmem', List.mem_cons_of_mem _ hproc⟩
        · by_cases hgn : g.name ∈ gs.map Game.name
          · exact Or.inl ⟨g.name, hgn, List.mem_cons_self _ _⟩
          · refine Or.inr fun hnd2 => hnd ?_
            rw [List.map_cons, List.nodup_cons]
            exact ⟨hgn, hnd2⟩
      rw [importGo, if_neg hp]
      cases hf : findStored remaining g.name with
      | some s =>
        dsimp only
        exact ih _ _ _ _ h'
      | none =>
        dsimp only
        exact ih _ _ _ _ h'

/-- **C5.** A datafile containing the same game name twice makes the import
fail with the duplicate-game error.  In the model the transaction is the
pure state transformer itself: an `error` result returns no state at all,
so the store is exactly as it was before the import began — partial writes
are unobservable by construction. -/
theorem C5_duplicate_game (stored : List StoredGame) (parsed : List Game)
    (hdup : ¬(parsed.map Game.name).Nodup) :
    ∃ n, import_datafile_games stored parsed = .error (.duplicateGame n) :=
  importGo_duplicate parsed stored [] [] _ (Or.inr hdup)

/-- Witness for C5: two copies of the same game. -/
theorem C5_duplicate_game_witness :
    ¬(([gNice, gNice] : List Game).map Game.name).Nodup
    ∧ ∃ n, import_datafile_games [] [gNice, gNice] = .error (.duplicateGame n) :=
  ⟨by decide, C5_duplicate_game [] [gNice, gNice] (by decide)⟩

theorem update_romRows_cases (s : StoredGame) (g : Game) :
    (Game.update s g).1.romRows = s.romRows
    ∨ (Game.update s g).1.romRows = g.roms.map (compressROM s.name) := by
  by_cases hr : hsEq (Game.loadRoms s) g.roms
  · left
    simp [Game.update, hr]
  · right
    simp [Game.update, Bool.eq_false_iff.mpr hr]

theorem compressed_rows_nodup (nm : List Char) (roms : List ROM)
    (hnd : roms.Nodup)
    (hinj : ∀ r1 ∈ roms, ∀ r2 ∈ roms,
      compress_rom_name r1.name nm = compress_rom_name r2.name nm → r1.name = r2.name) :
    (roms.map (compressROM nm)).Nodup := by
  refine List.Nodup.map_on ?_ hnd
  intro r1 h1 r2 h2 heq
  have hn : compress_rom_name r1.name nm = compress_rom_name r2.name nm := by
    have := congrArg ROM.name heq
    cases r1; cases r2
    simpa [compressROM] using this
  have hname : r1.name = r2.name := hinj r1 h1 r2 h2 hn
  cases r1; cases r2
  simp_all [compressROM]

theorem importGo_rows_nodup :
    ∀ (gs : List Game) (remaining result : List StoredGame) (processed : List (List Char))
      (c : Counters) (st : List StoredGame) (c₁ : Counters),
      (∀ s ∈ remaining, s.romRows.Nodup) →
      (∀ s ∈ result, s.romRows.Nodup) →
      (∀ g ∈ gs, g.roms.Nodup ∧ ∀ r1 ∈ g.roms, ∀ r2 ∈ g.roms,
        compress_rom_name r1.name g.name = compress_rom_name r2.name g.name →
          r1.name = r2.name) →
      importGo gs remaining result processed c = .ok (st, c₁) →
      ∀ s ∈ st, s.romRows.Nodup := by
  intro gs
  induction gs with
  | nil =>
    intro remaining result processed c st c₁ _ hres _ hok
    rw [importGo] at hok
    simp only [Except.ok.injEq, Prod.mk.injEq] at hok
    exact hok.1 ▸ hres
  | cons g gs ih =>
    intro remaining result processed c st c₁ hrem hres hg hok
    have hghead := hg g (List.mem_cons_self _ _)
    have hgtail : ∀ g' ∈ gs, g'.roms.Nodup ∧ ∀ r1 ∈ g'.roms, ∀ r2 ∈ g'.roms,
        compress_rom_name r1.name g'.name = compress_rom_name r2.name g'.name →
          r1.name = r2.name :=
      fun g' hm => hg g' (List.mem_cons_of_mem _ hm)
    rw [importGo] at hok
    by_cases hp : g.name ∈ processed
    · rw [if_pos hp] at hok
      simp at hok
    · rw [if_neg hp] at hok
      cases hf : findStored remaining g.name with
      | some s =>
        rw [hf] at hok
        dsimp only at hok
        obtain ⟨hsname, hsmem⟩ := findStored_name hf
        refine ih _ _ _ _ _ _ ?_ ?_ hgtail hok
        · intro s' hs'
          exact hrem s' ((List.eraseP_sublist _).subset hs')
        · intro s' hs'
          rcases List.mem_append.mp hs' with hin | hone
          · exact hres s' hin
          · have hs'' : s' = (Game.update s g).1 := by simpa using hone
            subst hs''
            rcases update_romRows_cases s g with hrow | hrow
            · rw [hrow]
              exact hrem s hsmem
            · rw [hrow, hsname]
              exact compressed_rows_nodup g.name g.roms hghead.1 hghead.2
      | none =>
        rw [hf] at hok
        dsimp only at hok
        refine ih _ _ _ _ _ _ hrem ?_ hgtail hok
        intro s' hs'
        rcases List.mem_append.mp hs' with hin | hone
        · exact hres s' hin
        · have hs'' : s' = Game.insert g := by simpa using hone
          subst hs''
          show (g.roms.map (compressROM g.name)).Nodup
          exact compressed_rows_nodup g.name g.roms hghead.1 hghead.2

/-- **C6 (counterexample).** Two ROMs that agree on
`(size, crc32, md5, sha1)` but differ in name are distinct under the
derived `PartialEq` (which `HashSet<ROM>` uses), so a successful import
stores both rows: the stored ROM rows of a game are *not* pairwise distinct
on that 4-tuple. -/
theorem C6_counterexample :
    import_datafile_games [] [c6game] =
      .ok ([{ name := "B".data, revision := 0, catRows := [],
              romRows := [romTwinA, romTwinB] }], ⟨0, 0, 1, 0⟩)
    ∧ ¬(([romTwinA, romTwinB].map ROM.key).Nodup) :=
  ⟨by decide, by decide⟩

/-- **C6 (amended).** After every successful import, within each stored
game no two ROM rows are identical on **all** columns (name, status, size,
crc32, md5, sha1, sha256) — provided the store satisfied this before
importing and ROM-name compression is injective on each parsed game's ROM
names (e.g. names free of the marker characters).  Pairwise distinctness on
the `(size, crc32, md5, sha1)` 4-tuple alone does not hold: ROMs differing
only in name are both stored (see the counterexample). -/
theorem C6_rows_nodup (stored : List StoredGame) (parsed : List Game)
    (st : List StoredGame) (c : Counters)
    (hs : ∀ s ∈ stored, s.romRows.Nodup)
    (hg : ∀ g ∈ parsed, g.roms.Nodup ∧ ∀ r1 ∈ g.roms, ∀ r2 ∈ g.roms,
      compress_rom_name r1.name g.name = compress_rom_name r2.name g.name →
        r1.name = r2.name)
    (h : import_datafile_games stored parsed = .ok (st, c)) :
    ∀ s ∈ st, s.romRows.Nodup :=
  importGo_rows_nodup parsed stored [] [] _ st c hs (by simp) hg h

/-- Witness for the amended C6: the rows stored for a fresh well-behaved
game are pairwise distinct. -/
theorem C6_rows_nodup_witness : (Game.insert gNice).romRows.Nodup := by
  have h := C6_rows_nodup [] [gNice] [Game.insert gNice] ⟨0, 0, 1, 0⟩
    (by simp) (by decide) (by decide)
  exact h (Game.insert gNice) (by simp)

/-- **C9 (counterexample).** `verify_chd` is an unimplemented stub: even in
an environment where the external tool succeeds and the extracted image
verifies (the spec-modelled delegation yields `Verified`), `verify_file`
returns `Broken` for the `.chd` — so it does not "return Broken only on
tool failure". -/
theorem C9_counterexample :
    verify_file fs9 chdPath = .ok .Broken
    ∧ verify_chd_spec fs9 chdExtract9 chdPath = .ok .Verified
    ∧ (Except.ok ROMStatus.Broken : Except VerifyErr ROMStatus) ≠ .ok .Verified :=
  ⟨by decide, by decide, by decide⟩

/-- **C9 (amended).** `verify_file` dispatches on the file extension: a
missing extension or one other than `cue`/`chd`/`bin`/`iso` yields
`Unverified`; `.bin`/`.iso` defer to the SHA-1 lookup; `.chd` always yields
`Broken` once the temp directory is created (decompression/delegation is
not implemented); for `.cue`, a missing sibling track file yields `Broken`,
and otherwise — when the neutralization does not panic — the result is
`Verified` exactly when the neutralized-cue lookup returns a reference
SHA-1 that is a known ROM, else `Unverified`. -/
theorem C9_dispatch (fs : FSState) (p : FilePath0) :
    (fileExtension p.file = none → verify_file fs p = .ok .Unverified)
    ∧ (∀ ext, fileExtension p.file = some ext →
        ¬(ext = "cue".data) → ¬(ext = "chd".data) →
        ¬(ext = "bin".data) → ¬(ext = "iso".data) →
        verify_file fs p = .ok .Unverified)
    ∧ (fileExtension p.file = some "chd".data →
        verify_file fs p = (if fs.tempDirOk then .ok .Broken else .error .ioError))
    ∧ (fileExtension p.file = some "bin".data ∨ fileExtension p.file = some "iso".data →
        verify_file fs p = verify_standard_file fs p)
    ∧ (fileExtension p.file = some "cue".data → ∀ content, readFile fs p = some content →
        ((∃ fn ∈ get_track_filenames content, isFile fs (withFileName p fn) = false) →
          verify_file fs p = .ok .Broken)
        ∧ (∀ n, (∀ fn ∈ get_track_filenames content, isFile fs (withFileName p fn) = true) →
            neutralize content (fileStem p.file) = some n →
            ((verify_file fs p = .ok .Verified ↔
                ∃ h, lookupCue fs n = some h ∧ is_rom fs h = true)
             ∧ (verify_file fs p = .ok .Verified ∨ verify_file fs p = .ok .Unverified)))) := by
  refine ⟨?_, ?_, ?_, ?_, ?_⟩
  · intro hn
    simp [verify_file, hn]
  · intro ext he h1 h2 h3 h4
    unfold verify_file
    rw [he]
    dsimp only
    rw [if_neg h1, if_neg h2, if_neg (by simp [h3, h4])]
  · intro he
    unfold verify_file
    rw [he]
    dsimp only
    rw [if_neg (by decide), if_pos rfl]
    rfl
  · intro he
    rcases he with he | he
    · unfold verify_file
      rw [he]
      dsimp only
      rw [if_neg (by decide), if_neg (by decide), if_pos (by simp)]
    · unfold verify_file
      rw [he]
      dsimp only
      rw [if_neg (by decide), if_neg (by decide), if_pos (by simp)]
  · intro he content hc
    have hv : verify_file fs p = verify_cue fs p := by
      unfold verify_file
      rw [he]
      dsimp only
      rw [if_pos rfl]
    constructor
    · rintro ⟨fn, hmem, hmiss⟩
      have hall : (get_track_filenames content).all
          (fun fn => isFile fs (withFileName p fn)) = false := by
        rw [Bool.eq_false_iff]
        intro hcon
        have := List.all_eq_true.mp hcon fn hmem
        rw [hmiss] at this
        exact Bool.false_ne_true this
      rw [hv]
      unfold verify_cue
      rw [hc]
      dsimp only
      rw [if_neg (by rw [hall]; exact Bool.false_ne_true)]
    · intro n hALL hneut
      have hall : (get_track_filenames content).all
          (fun fn => isFile fs (withFileName p fn)) = true :=
        List.all_eq_true.mpr hALL
      cases hl : lookupCue fs n with
      | none =>
        have hres : verify_file fs p = .ok .Unverified := by
          rw [hv]
          unfold verify_cue
          rw [hc]
          dsimp only
          rw [if_pos hall]
          unfold find_cue_hash
          rw [hneut]
          dsimp only
          rw [hl]
        constructor
        · rw [hres]
          constructor
          · intro hcon
            simp at hcon
          · rintro ⟨h, hl', -⟩
            exact Option.noConfusion hl'
        · right
          exact hres
      | some h =>
        by_cases hir : is_rom fs h
        · have hres : verify_file fs p = .ok .Verified := by
            rw [hv]
            unfold verify_cue
            rw [hc]
            dsimp only
            rw [if_pos hall]
            unfold find_cue_hash
            rw [hneut]
            dsimp only
            rw [hl]
            dsimp only
            rw [if_pos hir]
          refine ⟨⟨fun _ => ⟨h, rfl, hir⟩, fun _ => hres⟩, Or.inl hres⟩
        · have hir' : is_rom fs h = false := Bool.eq_false_iff.mpr hir
          have hres : verify_file fs p = .ok .Unverified := by
            rw [hv]
            unfold verify_cue
            rw [hc]
            dsimp only
            rw [if_pos hall]
            unfold find_cue_hash
            rw [hneut]
            dsimp only
            rw [hl]
            dsimp only
            rw [if_neg hir]
          constructor
          · rw [hres]
            constructor
            · intro hcon
              simp at hcon
            · rintro ⟨h', hl', hir2⟩
              injection hl' with hh
              subst hh
              rw [hir'] at hir2
              exact absurd hir2 Bool.false_ne_true
          · right
            exact hres

/-- Witness for the amended C9: a `.cue` whose sibling exists and whose
neutralized text maps to a known ROM verifies. -/
theorem C9_dispatch_witness : verify_file fsCue cuePath = .ok .Verified := by
  have h := (C9_dispatch fsCue cuePath).2.2.2.2 (by decide) cueContent (by decide)
  have h2 := h.2 cueNeut (by decide) (by decide)
  exact h2.1.mpr ⟨[9], by decide, by decide⟩

end NDump
